import Mathlib

/-!
Verification development for the configuration-resolution and bootstrap core
of the repository (files `nonebot/config.py` and `nonebot/__init__.py`).

The Python code is shallowly embedded: dictionaries become association lists
with Python-dict semantics (unique keys, insertion overwrites in place,
lookup by key), `Optional[str]` becomes `Option String`, raising becomes
`Except`, and the process-global driver singleton becomes explicit state
passing of an `Option DriverInst`.  External collaborators (the filesystem
read of an env file by `python-dotenv.read_env_file`, `json.loads`, and
`importlib.import_module`) are parameters of the model, gathered in `World`.
-/

set_option autoImplicit false

/-! ## Python-dict association lists -/

/-- Lookup of a key in an association list (first matching entry, which is
the only one when keys are unique, as in a Python dict). -/
def dget {α : Type} : List (String × α) → String → Option α
  | [], _ => Option.none
  | (k', v) :: rest, k => if k' = k then some v else dget rest k

/-- Python-dict insertion: overwrite the first entry with the given key in
place, or append the pair at the end when the key is absent. -/
def dinsert {α : Type} : List (String × α) → String → α → List (String × α)
  | [], k, v => [(k, v)]
  | (k', v') :: rest, k, v =>
    if k' = k then (k, v) :: rest else (k', v') :: dinsert rest k v

/-- Python `del d[k]`: remove the (unique) entry with the given key. -/
def derase {α : Type} : List (String × α) → String → List (String × α)
  | [], _ => []
  | (k', v) :: rest, k => if k' = k then rest else (k', v) :: derase rest k

/-- Python `{**a, **b}`: entries of `b` overwrite same-keyed entries of `a`. -/
def dunion {α : Type} (a b : List (String × α)) : List (String × α) :=
  b.foldl (fun acc kv => dinsert acc kv.1 kv.2) a

/-- Python dict construction from a sequence of pairs: later pairs with the
same key overwrite earlier ones. -/
def dictOf {α : Type} (l : List (String × α)) : List (String × α) :=
  dunion [] l

/-- Keys of an association list are pairwise distinct (every Python dict
satisfies this). -/
def nodupKeys {α : Type} (m : List (String × α)) : Prop :=
  (m.map Prod.fst).Nodup

instance {α : Type} (m : List (String × α)) : Decidable (nodupKeys m) :=
  inferInstanceAs (Decidable ((m.map Prod.fst).Nodup))

/-! ## Values -/

/-- JSON values, the decoding target of `Config.json_loads` for complex
fields and for opportunistically decoded extras. -/
inductive JsonVal where
  | null
  | bool (b : Bool)
  | num (n : Int)
  | str (s : String)
  | arr (xs : List JsonVal)
  | obj (fields : List (String × JsonVal))

/-- Python runtime values as they occur in the settings dictionaries of the
embedded code: `None`, raw strings from environment/file sources, decoded
JSON, plain ints/bools supplied as explicit overrides, and opaque typed
default objects of the schema (IP addresses, sets, timedeltas), identified
by a tag.  Scalar coercion performed later by pydantic validators is outside
the repository and left uninterpreted. -/
inductive PyVal where
  | vnone
  | str (s : String)
  | json (j : JsonVal)
  | vint (n : Int)
  | vbool (b : Bool)
  | pyDefault (tag : String)

/-- Settings dictionary: keys to Python values. -/
abbrev Dict := List (String × PyVal)

/-! ## Schema -/

/-- Declared schema field: name/alias, the environment lookup names pydantic
derives for it (`field.field_info.extra["env_names"]`), whether
`field.is_complex()` holds, and the declared default value. -/
structure FieldDecl where
  falias : String
  envNames : List String
  isComplex : Bool
  default : PyVal

/-! ## String helpers for the embedded Python string operations -/

/-- Embedding of Python `str.lower()` (keys here are ASCII). -/
def strLower (s : String) : String := String.mk (s.data.map Char.toLower)

/-- Helper for `splitOnChar`: accumulate the current chunk (reversed). -/
def splitOnCharAux (c : Char) : List Char → List Char → List String
  | [], acc => [String.mk acc.reverse]
  | x :: xs, acc =>
    if x = c then String.mk acc.reverse :: splitOnCharAux c xs []
    else splitOnCharAux c xs (x :: acc)

/-- Embedding of Python `str.split(sep)` for a single-character separator. -/
def splitOnChar (c : Char) (s : String) : List String :=
  splitOnCharAux c s.data []

/-- Helper for `pyPartitionColon`: split at the first occurrence of the
character, returning the pieces before and after it. -/
def splitFirstAux (c : Char) : List Char → List Char → Option (String × String)
  | [], _ => Option.none
  | x :: xs, acc =>
    if x = c then some (String.mk acc.reverse, String.mk xs)
    else splitFirstAux c xs (x :: acc)

/-- Embedding of Python `s.partition(":")`, keeping the two components the
source uses (`modulename, _, cls = config.driver.partition(":")`): the part
before the first colon and the part after it, the latter `""` when the
string has no colon. -/
def pyPartitionColon (s : String) : String × String :=
  match splitFirstAux ':' s.data [] with
  | some (a, b) => (a, b)
  | Option.none => (s, "")

/-! ## CustomEnvSettings.__call__ (nonebot/config.py) -/

/-- Embedding of `env_vars = os.environ` resp.
`env_vars = {k.lower(): v for k, v in os.environ.items()}` depending on
`settings.__config__.case_sensitive`. -/
def envVarsLowered (caseSensitive : Bool) (environ : List (String × String)) :
    List (String × String) :=
  if caseSensitive then dictOf environ
  else dictOf (environ.map (fun kv => (strLower kv.1, kv.2)))

/-- Embedding of `env_vars = {**env_file_vars, **env_vars}`: the merged
mapping the per-field search and the extras loop read from.  File values are
`Optional[str]` (python-dotenv yields `None` for a key without a value);
live-environment values are strings. -/
def envVarsMerged (caseSensitive : Bool) (environ : List (String × String))
    (fileVars : List (String × Option String)) : List (String × Option String) :=
  dunion fileVars ((envVarsLowered caseSensitive environ).map (fun kv => (kv.1, some kv.2)))

/-- Lookup function over the merged environment mapping: `Option.none` means
the key is absent, `some Option.none` a key present with a `None` value. -/
def evmOf (caseSensitive : Bool) (environ : List (String × String))
    (fileVars : List (String × Option String)) : String → Option (Option String) :=
  fun k => dget (envVarsMerged caseSensitive environ fileVars) k

/-- Embedding of the inner loop `for env_name in field.field_info.extra["env_names"]`:
look each name up in `env_vars` (via `.get`, so a present-but-`None` value
reads as not found), delete every visited name from `env_file_vars`, and
stop at the first name with a value.  Returns the residual file mapping and,
when found, the name at which the loop broke together with the value. -/
def fieldScan (evm : String → Option (Option String)) :
    List String → List (String × Option String) →
    (List (String × Option String)) × Option (String × String)
  | [], efv => (efv, Option.none)
  | n :: rest, efv =>
    let efv' := derase efv n
    match (evm n).join with
    | some v => (efv', some (n, v))
    | Option.none => fieldScan evm rest efv'

/-- Value-and-name outcome of the per-field search, independent of the
residual file mapping (first environment name with a non-`None` value). -/
def scanFound (evm : String → Option (Option String)) : List String → Option (String × String)
  | [] => Option.none
  | n :: rest =>
    match (evm n).join with
    | some v => some (n, v)
    | Option.none => scanFound evm rest

/-- Outcome of processing one declared field in `CustomEnvSettings.__call__`:
no contribution when no source has a value; otherwise the raw string for a
plain field, the JSON-decoded value for a complex field, or a
`SettingsError` whose message names the environment name at which the value
was found (`error parsing JSON for "<env_name>"`). -/
def fieldOutcome (jl : String → Except String JsonVal)
    (evm : String → Option (Option String)) (f : FieldDecl) :
    Except String (Option PyVal) :=
  match scanFound evm f.envNames with
  | Option.none => .ok Option.none
  | some (n, v) =>
    if f.isComplex then
      match jl v with
      | .ok j => .ok (some (PyVal.json j))
      | .error _ => .error ("error parsing JSON for \"" ++ n ++ "\"")
    else .ok (some (PyVal.str v))

/-- Embedding of the loop `for field in settings.__fields__.values()`:
thread the output dict `d` and the shrinking `env_file_vars` through the
declared fields, stopping with a `SettingsError` on a JSON decode failure of
a complex field. -/
def processFields (jl : String → Except String JsonVal)
    (evm : String → Option (Option String)) :
    List FieldDecl → Dict → List (String × Option String) →
    Except String (Dict × List (String × Option String))
  | [], d, efv => .ok (d, efv)
  | f :: rest, d, efv =>
    let step := fieldScan evm f.envNames efv
    match step.2 with
    | Option.none => processFields jl evm rest d step.1
    | some (n, v) =>
      if f.isComplex then
        match jl v with
        | .ok j => processFields jl evm rest (dinsert d f.falias (PyVal.json j)) step.1
        | .error _ => .error ("error parsing JSON for \"" ++ n ++ "\"")
      else processFields jl evm rest (dinsert d f.falias (PyVal.str v)) step.1

/-- Embedding of the body of the extras loop: a residual file entry whose
value is `None` or empty adopts the value found in the merged `env_vars`
when its name is present there; the resulting value, when truthy, is
JSON-decoded with `ValueError` silently swallowed (the raw string is kept). -/
def extraValue (jl : String → Except String JsonVal)
    (evm : String → Option (Option String)) (name : String) (v0 : Option String) : PyVal :=
  let adopt : Bool :=
    (match v0 with
     | Option.none => true
     | some s => s == "") && (evm name).isSome
  let v1 : Option String := if adopt then (evm name).join else v0
  match v1 with
  | Option.none => PyVal.vnone
  | some s =>
    if s == "" then PyVal.str s
    else
      match jl s with
      | .ok j => PyVal.json j
      | .error _ => PyVal.str s

/-- Embedding of `for env_name, env_val in env_file_vars.items(): ... d[env_name] = env_val`
over the residual file mapping. -/
def processExtras (jl : String → Except String JsonVal)
    (evm : String → Option (Option String)) :
    Dict → List (String × Option String) → Dict
  | d, [] => d
  | d, (n, v0) :: rest => processExtras jl evm (dinsert d n (extraValue jl evm n v0)) rest

/-- Embedding of `CustomEnvSettings.__call__`.  `environ` is `os.environ`;
`fileVars` is the mapping `read_env_file` produced for the configured env
file (empty when the file does not exist), with keys already case-folded by
that external reader. -/
def customEnvSettingsCall (jl : String → Except String JsonVal) (caseSensitive : Bool)
    (fields : List FieldDecl) (environ : List (String × String))
    (fileVars : List (String × Option String)) : Except String Dict :=
  let evm := evmOf caseSensitive environ fileVars
  match processFields jl evm fields [] fileVars with
  | .error e => .error e
  | .ok (d, efv) => .ok (processExtras jl evm d efv)

/-! ## Source merge and model construction (BaseConfig) -/

/-- Modelled from the spec: pydantic composes the sources returned by
`BaseConfig.Config.customise_sources` — `(init_settings, CustomEnvSettings,
InitSettingsSource(common_config), file_secret_settings)`, listed highest
precedence first — into one mapping in which "each later source's present
keys overwrite earlier ones per field" when walked lowest to highest
(secrets, which contribute nothing here, then the common config, then the
environment/file source, then the explicit overrides). -/
def buildValues (jl : String → Except String JsonVal) (caseSensitive : Bool)
    (fields : List FieldDecl) (explicit common : Dict)
    (environ : List (String × String)) (fileVars : List (String × Option String)) :
    Except String Dict :=
  match customEnvSettingsCall jl caseSensitive fields environ fileVars with
  | .error e => .error e
  | .ok envd => .ok (dunion (dunion (dunion ([] : Dict) common) envd) explicit)

/-- Modelled from the spec: pydantic validation of the merged mapping against
the schema assigns each declared field the merged value when one is present
and otherwise its declared default ("a field present in no source takes its
declared default"), and — the model classes set `extra = "allow"` — keeps
every undeclared merged key unchanged.  Scalar coercion by pydantic
validators is outside the repository; raw values are kept as produced by the
sources. -/
def resolveConfig (jl : String → Except String JsonVal) (caseSensitive : Bool)
    (fields : List FieldDecl) (explicit common : Dict)
    (environ : List (String × String)) (fileVars : List (String × Option String)) :
    Except String Dict :=
  match buildValues jl caseSensitive fields explicit common environ fileVars with
  | .error e => .error e
  | .ok merged =>
    .ok ((fields.map (fun f => (f.falias, (dget merged f.falias).getD f.default))) ++
      merged.filter (fun kv => !(fields.any (fun f => f.falias == kv.1))))

/-- Embedding of attribute access on a resolved settings object.  Declared
fields and extras live in `self.__dict__`; for any other name Python falls
back to `BaseConfig.__getattr__`, which returns `self.__dict__.get(name)`,
i.e. `None` — attribute access is total and never raises. -/
def configGetattr (resolved : Dict) (name : String) : PyVal :=
  match dget resolved name with
  | some v => v
  | Option.none => PyVal.vnone

/-! ## Declared schemas (nonebot/config.py: `Env` and `Config`) -/

/-- Schema of `Env`: the single field `environment: str = "prod"`.  The
model is case-insensitive, so pydantic's derived environment name is the
lower-cased field name. -/
def envSchema : List FieldDecl :=
  [⟨"environment", ["environment"], false, PyVal.str "prod"⟩]

/-- Schema of `Config`: the declared fields of the main settings model with
their complex-typed flags (`Dict`/`Set`-typed fields are complex) and their
declared defaults (opaque typed default objects carry a tag). -/
def configSchema : List FieldDecl :=
  [⟨"driver", ["driver"], false, PyVal.str "nonebot.drivers.fastapi"⟩,
   ⟨"host", ["host"], false, PyVal.pyDefault "IPv4Address(127.0.0.1)"⟩,
   ⟨"port", ["port"], false, PyVal.vint 8080⟩,
   ⟨"debug", ["debug"], false, PyVal.vbool false⟩,
   ⟨"log_level", ["log_level"], false, PyVal.vnone⟩,
   ⟨"api_root", ["api_root"], true, PyVal.pyDefault "dict()"⟩,
   ⟨"api_timeout", ["api_timeout"], false, PyVal.pyDefault "float(30.0)"⟩,
   ⟨"access_token", ["access_token"], false, PyVal.vnone⟩,
   ⟨"secret", ["secret"], false, PyVal.vnone⟩,
   ⟨"superusers", ["superusers"], true, PyVal.pyDefault "set()"⟩,
   ⟨"nickname", ["nickname"], true, PyVal.pyDefault "set()"⟩,
   ⟨"command_start", ["command_start"], true, PyVal.pyDefault "set(/)"⟩,
   ⟨"command_sep", ["command_sep"], true, PyVal.pyDefault "set(.)"⟩,
   ⟨"session_expire_timeout", ["session_expire_timeout"], false,
     PyVal.pyDefault "timedelta(minutes=2)"⟩]

/-! ## Driver bootstrap (nonebot/__init__.py) -/

/-- Connected peer handle; its internals are owned by the driver and are
irrelevant to the registry logic, so peers are identified by a number. -/
abbrev BotObj := Nat

/-- Live driver instance: the source constructs it as `DriverClass(env, config)`
and it owns the bot registry (`driver.bots`). -/
structure DriverInst where
  denv : Dict
  dconfig : Dict
  bots : List (String × BotObj)

/-- Python object as seen by the attribute walk of `init`: a set of named
attributes plus, when the object is a constructible driver class, its
constructor. -/
inductive PyObj where
  | mk (attrs : List (String × PyObj)) (mkDriver : Option (Dict → Dict → DriverInst))

/-- Embedding of `getattr(instance, attr_str)`: `Option.none` models the
`AttributeError`. -/
def PyObj.getattrOf : PyObj → String → Option PyObj
  | PyObj.mk attrs _, a => dget attrs a

/-- Constructor of a Python object, when it is a constructible driver class. -/
def PyObj.ctorOf : PyObj → Option (Dict → Dict → DriverInst)
  | PyObj.mk _ c => c

/-- Embedding of `for attr_str in (...).split("."): instance = getattr(instance, attr_str)`. -/
def getattrChain : PyObj → List String → Option PyObj
  | o, [] => some o
  | o, a :: rest =>
    match o.getattrOf a with
    | some o' => getattrChain o' rest
    | Option.none => Option.none

/-- External collaborators of the embedded code: the live process
environment, `read_env_file` (returning the parsed mapping of a path, empty
when the file is missing), `json.loads`, and `importlib.import_module`. -/
structure World where
  environ : List (String × String)
  readEnvFile : String → List (String × Option String)
  jsonLoads : String → Except String JsonVal
  importModule : String → Option PyObj

/-- Embedding of the driver-selector resolution in `init`:
`modulename, _, cls = config.driver.partition(":")`, import of the module,
then the attribute walk over `(cls or "Driver").split(".")` — the empty
class part (colon absent or nothing after it) defaults to `"Driver"` —
yielding the driver class, whose constructor must exist. -/
def resolveDriverClass (w : World) (driverStr : String) :
    Except String (Dict → Dict → DriverInst) :=
  let parts := pyPartitionColon driverStr
  match w.importModule parts.1 with
  | Option.none => .error ("ImportError: " ++ parts.1)
  | some m =>
    match getattrChain m (splitOnChar '.' (if parts.2 = "" then "Driver" else parts.2)) with
    | Option.none => .error "AttributeError"
    | some inst =>
      match inst.ctorOf with
      | some f => .ok f
      | Option.none => .error "TypeError: not constructible"

/-- Embedding of `_env_file or f".env.{env.environment}"` in `init`: Python
`or` falls back to the formatted default both for `None` and for the falsy
empty string. -/
def mainEnvFile (envFileArg : Option String) (environment : String) : String :=
  match envFileArg with
  | some p => if p = "" then ".env." ++ environment else p
  | Option.none => ".env." ++ environment

/-- Formatting of a settings value inside an f-string
(`f".env.{env.environment}"`); only the string branch is ever reached in
the modelled flows. -/
def pyValFormat : PyVal → String
  | PyVal.str s => s
  | PyVal.vnone => "None"
  | PyVal.vint n => toString n
  | PyVal.vbool b => if b then "True" else "False"
  | PyVal.json _ => "json"
  | PyVal.pyDefault t => t

/-- Embedding of `nonebot.init`.  The process-global `_driver` is the
explicit state: `if not _driver:` leaves an existing instance untouched
(driver instances are truthy).  Otherwise `Env()` is resolved against the
fixed file `".env"`, the main `Config` is resolved with the caller's
`kwargs` as explicit overrides, `env.dict()` as `_common_config`, and the
selected env file, and finally the driver class is resolved and constructed
as `DriverClass(env, config)`. -/
def initModel (w : World) (st : Option DriverInst) (envFileArg : Option String)
    (kwargs : Dict) : Except String (Option DriverInst) :=
  match st with
  | some _ => .ok st
  | Option.none =>
    match resolveConfig w.jsonLoads false envSchema [] [] w.environ (w.readEnvFile ".env") with
    | .error e => .error e
    | .ok envd =>
      let environment := pyValFormat (configGetattr envd "environment")
      match resolveConfig w.jsonLoads false configSchema kwargs envd w.environ
          (w.readEnvFile (mainEnvFile envFileArg environment)) with
      | .error e => .error e
      | .ok cfgd =>
        match configGetattr cfgd "driver" with
        | PyVal.str driverStr =>
          (match resolveDriverClass w driverStr with
           | .error e => .error e
           | .ok f => .ok (some (f envd cfgd)))
        | _ => .error "TypeError: driver selector is not a string"

/-! ## Process registry accessors (nonebot/__init__.py) -/

/-- Errors raised by the registry accessors: the `ValueError` of `get_driver`
for an uninitialized process, the `KeyError` of `get_bots()[self_id]`, and
the `ValueError` of `get_bot()` on an empty registry. -/
inductive NBErr where
  | notInit
  | keyError (k : String)
  | noBots
deriving DecidableEq

/-- Embedding of `get_driver`: raises `ValueError("NoneBot has not been initialized.")`
when the global driver is absent. -/
def get_driver (st : Option DriverInst) : Except NBErr DriverInst :=
  match st with
  | Option.none => .error NBErr.notInit
  | some d => .ok d

/-- Embedding of `get_bots`: `driver = get_driver(); return driver.bots`. -/
def get_bots (st : Option DriverInst) : Except NBErr (List (String × BotObj)) :=
  match get_driver st with
  | .error e => .error e
  | .ok d => .ok d.bots

/-- Embedding of `get_bot`: with an id, `bots[self_id]` (KeyError when
absent); without one, the first entry of the registry, or
`ValueError("There are no bots to get.")` when it is empty. -/
def get_bot (st : Option DriverInst) (selfId : Option String) : Except NBErr BotObj :=
  match get_bots st with
  | .error e => .error e
  | .ok bots =>
    match selfId with
    | some i =>
      match dget bots i with
      | some b => .ok b
      | Option.none => .error (NBErr.keyError i)
    | Option.none =>
      match bots with
      | [] => .error NBErr.noBots
      | (_, b) :: _ => .ok b

/-! ## Concrete instances used by the closed evaluation theorems -/

/-- Toy JSON decoder used to evaluate the model on concrete inputs: it
recognizes the single document `[1]` and rejects everything else (the real
`json.loads` is an external collaborator and enters the model only as a
parameter). -/
def jl0 : String → Except String JsonVal :=
  fun s => if s = "[1]" then .ok (JsonVal.arr [JsonVal.num 1]) else .error "invalid json"

/-- Value of a successful resolution, for naming concrete results. -/
def okOr : Except String Dict → Dict :=
  fun x => match x with
  | .ok d => d
  | .error _ => []

/-- The `port` field of the main schema. -/
def portF : FieldDecl := ⟨"port", ["port"], false, PyVal.vint 8080⟩

/-- The `superusers` field of the main schema. -/
def superusersF : FieldDecl :=
  ⟨"superusers", ["superusers"], true, PyVal.pyDefault "set()"⟩

/-- Resolution with `PORT` in the live environment and `port` in the file. -/
def C1res : Dict :=
  okOr (resolveConfig jl0 false configSchema [] [] [("PORT", "9000")] [("port", some "8000")])

/-- Resolution with an undeclared variable only in the live environment. -/
def C4res : Dict :=
  okOr (resolveConfig jl0 false configSchema [] [] [("my_custom", "1")] [])

/-- Resolution with an undeclared file key with empty value and a same-named
live-environment variable holding JSON. -/
def C5res : Dict :=
  okOr (resolveConfig jl0 false configSchema [] []
    [("CUSTOM_KEY", "[1]")] [("custom_key", some "")])

/-- Resolution with no sources at all. -/
def C10res : Dict :=
  okOr (resolveConfig jl0 false configSchema [] [] [] [])

/-- Module tree for the demo world: a module named after the default driver
selector carrying a `Driver` class. -/
def demoModule : PyObj :=
  PyObj.mk [("Driver", PyObj.mk [] (some (fun e c => ⟨e, c, []⟩)))] Option.none

/-- Import table resolving exactly the default driver module. -/
def demoImport : String → Option PyObj :=
  fun m => if m = "nonebot.drivers.fastapi" then some demoModule else Option.none

/-- World with empty environment and no settings files. -/
def demoWorld : World :=
  ⟨[], fun _ => [], jl0, demoImport⟩

/-- Driver instance the demo world constructs: environment and main settings
resolve to pure defaults, with the environment-selector dict flowing into the
main settings as the extra key `environment` via `_common_config`. -/
def demoDriver : DriverInst :=
  ⟨envSchema.map (fun f => (f.falias, f.default)),
   configSchema.map (fun f => (f.falias, f.default)) ++ [("environment", PyVal.str "prod")],
   []⟩

/-- Filesystem selecting environment `dev` from the base file. -/
def w9fsA : String → List (String × Option String) :=
  fun p =>
    if p = ".env" then [("environment", some "dev")]
    else if p = ".env.dev" then [("port", some "7000")]
    else []

/-- Same filesystem except for a file no resolution path ever reads. -/
def w9fsB : String → List (String × Option String) :=
  fun p =>
    if p = ".env" then [("environment", some "dev")]
    else if p = ".env.dev" then [("port", some "7000")]
    else if p = "unrelated" then [("x", some "y")]
    else []

def w9A : World := ⟨[], w9fsA, jl0, demoImport⟩

def w9B : World := ⟨[], w9fsB, jl0, demoImport⟩

/-- Driver holding one registered bot under id `"X"`. -/
def d8 : DriverInst := ⟨[], [], [("X", 1)]⟩

/-! ## Lemmas about the dict operations -/

theorem dget_dinsert {α : Type} (m : List (String × α)) (k k' : String) (v : α) :
    dget (dinsert m k v) k' = if k = k' then some v else dget m k' := by
  induction m with
  | nil => by_cases h : k = k' <;> simp [dinsert, dget, h]
  | cons kv rest ih =>
    obtain ⟨k0, v0⟩ := kv
    by_cases h0 : k0 = k
    · subst h0
      by_cases h : k0 = k' <;> simp [dinsert, dget, h]
    · rw [show dinsert ((k0, v0) :: rest) k v = (k0, v0) :: dinsert rest k v from by
        simp [dinsert, h0]]
      by_cases h1 : k0 = k'
      · subst h1
        have hk : ¬ k = k0 := fun hh => h0 hh.symm
        simp [dget, hk]
      · simp [dget, h1, ih]

theorem dget_dinsert_self {α : Type} (m : List (String × α)) (k : String) (v : α) :
    dget (dinsert m k v) k = some v := by
  simp [dget_dinsert]

theorem dget_dinsert_ne {α : Type} (m : List (String × α)) (k k' : String) (v : α)
    (h : k' ≠ k) : dget (dinsert m k v) k' = dget m k' := by
  simp [dget_dinsert, Ne.symm h]

theorem mem_keys_dinsert {α : Type} (m : List (String × α)) (k a : String) (v : α) :
    a ∈ (dinsert m k v).map Prod.fst ↔ a = k ∨ a ∈ m.map Prod.fst := by
  induction m with
  | nil => simp [dinsert]
  | cons kv rest ih =>
    obtain ⟨k0, v0⟩ := kv
    by_cases h0 : k0 = k
    · subst h0
      simp [dinsert]
    · simp [dinsert, h0, ih]
      tauto

theorem nodupKeys_dinsert {α : Type} (m : List (String × α)) (k : String) (v : α)
    (h : nodupKeys m) : nodupKeys (dinsert m k v) := by
  induction m with
  | nil => simp [dinsert, nodupKeys]
  | cons kv rest ih =>
    obtain ⟨k0, v0⟩ := kv
    rw [nodupKeys, List.map_cons, List.nodup_cons] at h
    by_cases h0 : k0 = k
    · subst h0
      rw [show dinsert ((k0, v0) :: rest) k0 v = (k0, v) :: rest from by simp [dinsert]]
      rw [nodupKeys, List.map_cons, List.nodup_cons]
      exact h
    · rw [show dinsert ((k0, v0) :: rest) k v = (k0, v0) :: dinsert rest k v from by
        simp [dinsert, h0]]
      rw [nodupKeys, List.map_cons, List.nodup_cons]
      refine ⟨fun hk => ?_, ih h.2⟩
      rcases (mem_keys_dinsert rest k k0 v).1 hk with h1 | h1
      · exact h0 h1
      · exact h.1 h1

theorem dget_dunion {α : Type} (a b : List (String × α)) (k : String) (hb : nodupKeys b) :
    dget (dunion a b) k = match dget b k with
      | some v => some v
      | Option.none => dget a k := by
  induction b generalizing a with
  | nil => simp [dunion, dget]
  | cons kv rest ih =>
    obtain ⟨k0, v0⟩ := kv
    rw [nodupKeys, List.map_cons, List.nodup_cons] at hb
    have step : dunion a ((k0, v0) :: rest) = dunion (dinsert a k0 v0) rest := rfl
    rw [step, ih (dinsert a k0 v0) hb.2]
    by_cases h : k0 = k
    · subst h
      have hrest : dget rest k0 = Option.none := by
        cases hr : dget rest k0 with
        | none => rfl
        | some w =>
          exfalso
          apply hb.1
          clear ih hb step
          induction rest with
          | nil => simp [dget] at hr
          | cons kv2 rest2 ih2 =>
            obtain ⟨k2, v2⟩ := kv2
            by_cases h2 : k2 = k0
            · subst h2
              simp
            · simp [dget, h2] at hr
              simpa using Or.inr (ih2 hr)
      simp [dget, hrest, dget_dinsert_self]
    · simp [dget, h, dget_dinsert_ne a k0 k v0 (fun hh => h hh.symm)]

theorem nodupKeys_dunion {α : Type} (a b : List (String × α)) (ha : nodupKeys a) :
    nodupKeys (dunion a b) := by
  induction b generalizing a with
  | nil => exact ha
  | cons kv rest ih =>
    obtain ⟨k0, v0⟩ := kv
    exact ih (dinsert a k0 v0) (nodupKeys_dinsert a k0 v0 ha)

theorem nodupKeys_nil {α : Type} : nodupKeys ([] : List (String × α)) := by
  simp [nodupKeys]

theorem nodupKeys_dictOf {α : Type} (l : List (String × α)) : nodupKeys (dictOf l) :=
  nodupKeys_dunion [] l nodupKeys_nil

theorem dget_derase_ne {α : Type} (m : List (String × α)) (n k : String) (h : k ≠ n) :
    dget (derase m n) k = dget m k := by
  induction m with
  | nil => rfl
  | cons kv rest ih =>
    obtain ⟨k0, v0⟩ := kv
    by_cases h0 : k0 = n
    · subst h0
      have hk : ¬ k0 = k := fun hh => h hh.symm
      simp [derase, dget, hk]
    · simp [derase, dget, h0, ih]

theorem dget_of_mem_first {α : Type} (m : List (String × α)) (k : String) (w : α)
    (hr : dget m k = some w) : k ∈ m.map Prod.fst := by
  induction m with
  | nil => simp [dget] at hr
  | cons kv rest ih =>
    obtain ⟨k2, v2⟩ := kv
    rw [List.map_cons, List.mem_cons]
    by_cases h2 : k2 = k
    · exact Or.inl h2.symm
    · simp [dget, h2] at hr
      exact Or.inr (ih hr)

theorem dget_eq_none_of_not_mem {α : Type} (m : List (String × α)) (k : String)
    (h : k ∉ m.map Prod.fst) : dget m k = Option.none := by
  cases hr : dget m k with
  | none => rfl
  | some w => exact absurd (dget_of_mem_first m k w hr) h

theorem dget_derase_self {α : Type} (m : List (String × α)) (n : String)
    (h : nodupKeys m) : dget (derase m n) n = Option.none := by
  induction m with
  | nil => rfl
  | cons kv rest ih =>
    obtain ⟨k0, v0⟩ := kv
    rw [nodupKeys, List.map_cons, List.nodup_cons] at h
    by_cases h0 : k0 = n
    · subst h0
      rw [show derase ((k0, v0) :: rest) k0 = rest from by simp [derase]]
      exact dget_eq_none_of_not_mem rest k0 h.1
    · simp [derase, dget, h0, ih h.2]

theorem mem_keys_derase {α : Type} (m : List (String × α)) (n a : String)
    (h : a ∈ (derase m n).map Prod.fst) : a ∈ m.map Prod.fst := by
  induction m with
  | nil => simp [derase] at h
  | cons kv rest ih =>
    obtain ⟨k0, v0⟩ := kv
    by_cases h0 : k0 = n
    · subst h0
      rw [show derase ((k0, v0) :: rest) k0 = rest from by simp [derase]] at h
      rw [List.map_cons, List.mem_cons]
      exact Or.inr h
    · rw [show derase ((k0, v0) :: rest) n = (k0, v0) :: derase rest n from by
        simp [derase, h0]] at h
      rw [List.map_cons, List.mem_cons] at h ⊢
      rcases h with h | h
      · exact Or.inl h
      · exact Or.inr (ih h)

theorem nodupKeys_derase {α : Type} (m : List (String × α)) (n : String)
    (h : nodupKeys m) : nodupKeys (derase m n) := by
  induction m with
  | nil => exact h
  | cons kv rest ih =>
    obtain ⟨k0, v0⟩ := kv
    rw [nodupKeys, List.map_cons, List.nodup_cons] at h
    by_cases h0 : k0 = n
    · subst h0
      rw [show derase ((k0, v0) :: rest) k0 = rest from by simp [derase]]
      exact h.2
    · rw [show derase ((k0, v0) :: rest) n = (k0, v0) :: derase rest n from by
        simp [derase, h0]]
      rw [nodupKeys, List.map_cons, List.nodup_cons]
      exact ⟨fun hk => h.1 (mem_keys_derase rest n k0 hk), ih h.2⟩

theorem dget_append {α : Type} (a b : List (String × α)) (k : String) :
    dget (a ++ b) k = match dget a k with
      | some v => some v
      | Option.none => dget b k := by
  induction a with
  | nil => simp [dget]
  | cons kv rest ih =>
    obtain ⟨k0, v0⟩ := kv
    by_cases h0 : k0 = k
    · simp [dget, h0]
    · simp [dget, h0, ih]

theorem dget_map_some {α : Type} (l : List (String × α)) (k : String) :
    dget (l.map (fun kv => (kv.1, some kv.2))) k = (dget l k).map some := by
  induction l with
  | nil => simp [dget]
  | cons kv rest ih =>
    obtain ⟨k0, v0⟩ := kv
    by_cases h0 : k0 = k
    · simp [dget, h0]
    · simp [dget, h0, ih]

theorem nodupKeys_map_some {α : Type} (l : List (String × α)) (h : nodupKeys l) :
    nodupKeys (l.map (fun kv => (kv.1, some kv.2))) := by
  unfold nodupKeys at h ⊢
  rw [List.map_map]
  exact h

theorem dget_filter_keep {α : Type} (l : List (String × α)) (p : String × α → Bool)
    (k : String) (hp : ∀ v, p (k, v) = true) :
    dget (l.filter p) k = dget l k := by
  induction l with
  | nil => rfl
  | cons kv rest ih =>
    obtain ⟨k0, v0⟩ := kv
    by_cases h0 : k0 = k
    · subst h0
      rw [List.filter_cons, hp v0]
      simp [dget]
    · rw [List.filter_cons]
      cases hpc : p (k0, v0) with
      | true => simp [dget, h0, ih]
      | false => simp [dget, h0, ih]

theorem dget_filter_none {α : Type} (l : List (String × α)) (p : String × α → Bool)
    (k : String) (hp : ∀ v, p (k, v) = false) :
    dget (l.filter p) k = Option.none := by
  induction l with
  | nil => rfl
  | cons kv rest ih =>
    obtain ⟨k0, v0⟩ := kv
    rw [List.filter_cons]
    by_cases h0 : k0 = k
    · subst h0
      rw [hp v0]
      exact ih
    · cases hpc : p (k0, v0) with
      | true => simp [dget, h0, ih]
      | false => exact ih

/-! ## Lemmas about the per-field search and the extras loop -/

theorem dget_derase_mono {α : Type} (m : List (String × α)) (n k : String) (v : α)
    (hn : nodupKeys m) (h : dget (derase m n) k = some v) : dget m k = some v := by
  by_cases hk : k = n
  · subst hk
    rw [dget_derase_self m k hn] at h
    exact absurd h (by simp)
  · rw [dget_derase_ne m n k hk] at h
    exact h

theorem fieldScan_snd (evm : String → Option (Option String)) (names : List String)
    (efv : List (String × Option String)) :
    (fieldScan evm names efv).2 = scanFound evm names := by
  induction names generalizing efv with
  | nil => rfl
  | cons n rest ih =>
    simp only [fieldScan, scanFound]
    cases hj : (evm n).join with
    | some v => simp [hj]
    | none => simp [hj, ih]

theorem fieldScan_fst_single (evm : String → Option (Option String)) (n : String)
    (efv : List (String × Option String)) :
    (fieldScan evm [n] efv).1 = derase efv n := by
  simp only [fieldScan]
  cases hj : (evm n).join <;> simp [hj, fieldScan]

theorem fieldScan_fst_keep (evm : String → Option (Option String)) (names : List String)
    (efv : List (String × Option String)) (k : String) (h : ∀ n ∈ names, n ≠ k) :
    dget (fieldScan evm names efv).1 k = dget efv k := by
  induction names generalizing efv with
  | nil => rfl
  | cons n rest ih =>
    have hnk : k ≠ n := fun hh => (h n (by simp)) hh.symm
    simp only [fieldScan]
    cases hj : (evm n).join with
    | some v => simpa [hj] using dget_derase_ne efv n k hnk
    | none =>
      simp only [hj]
      rw [ih (derase efv n) (fun m hm => h m (by simp [hm]))]
      exact dget_derase_ne efv n k hnk

theorem fieldScan_fst_nodup (evm : String → Option (Option String)) (names : List String)
    (efv : List (String × Option String)) (hn : nodupKeys efv) :
    nodupKeys (fieldScan evm names efv).1 := by
  induction names generalizing efv with
  | nil => exact hn
  | cons n rest ih =>
    simp only [fieldScan]
    cases hj : (evm n).join with
    | some v => simpa [hj] using nodupKeys_derase efv n hn
    | none =>
      simp only [hj]
      exact ih (derase efv n) (nodupKeys_derase efv n hn)

theorem fieldScan_fst_mono (evm : String → Option (Option String)) (names : List String)
    (efv : List (String × Option String)) (k : String) (v : Option String)
    (hn : nodupKeys efv) (h : dget (fieldScan evm names efv).1 k = some v) :
    dget efv k = some v := by
  induction names generalizing efv with
  | nil => exact h
  | cons n rest ih =>
    simp only [fieldScan] at h
    cases hj : (evm n).join with
    | some w =>
      rw [hj] at h
      exact dget_derase_mono efv n k v hn (by simpa using h)
    | none =>
      rw [hj] at h
      exact dget_derase_mono efv n k v hn
        (ih (derase efv n) (nodupKeys_derase efv n hn) h)

theorem pf_efv_nodup (jl : String → Except String JsonVal)
    (evm : String → Option (Option String)) (fields : List FieldDecl) (d0 d : Dict)
    (efv0 efv : List (String × Option String)) (hn : nodupKeys efv0)
    (h : processFields jl evm fields d0 efv0 = .ok (d, efv)) : nodupKeys efv := by
  induction fields generalizing d0 efv0 with
  | nil =>
    simp only [processFields, Except.ok.injEq, Prod.mk.injEq] at h
    rw [← h.2]
    exact hn
  | cons f rest ih =>
    simp only [processFields] at h
    cases hs : (fieldScan evm f.envNames efv0).2 with
    | none =>
      simp only [hs] at h
      exact ih _ _ (fieldScan_fst_nodup evm f.envNames efv0 hn) h
    | some nv =>
      obtain ⟨n, v⟩ := nv
      simp only [hs] at h
      by_cases hc : f.isComplex
      · rw [if_pos hc] at h
        cases hjl : jl v with
        | ok j =>
          rw [hjl] at h
          exact ih _ _ (fieldScan_fst_nodup evm f.envNames efv0 hn) h
        | error e =>
          rw [hjl] at h
          exact absurd h (by simp)
      · rw [if_neg hc] at h
        exact ih _ _ (fieldScan_fst_nodup evm f.envNames efv0 hn) h

theorem pf_efv_mono (jl : String → Except String JsonVal)
    (evm : String → Option (Option String)) (fields : List FieldDecl) (d0 d : Dict)
    (efv0 efv : List (String × Option String)) (k : String) (v : Option String)
    (hn : nodupKeys efv0) (h : processFields jl evm fields d0 efv0 = .ok (d, efv))
    (hv : dget efv k = some v) : dget efv0 k = some v := by
  induction fields generalizing d0 efv0 with
  | nil =>
    simp only [processFields, Except.ok.injEq, Prod.mk.injEq] at h
    rw [h.2]
    exact hv
  | cons f rest ih =>
    simp only [processFields] at h
    have hstep := fieldScan_fst_mono evm f.envNames efv0 k v hn
    have hsn := fieldScan_fst_nodup evm f.envNames efv0 hn
    cases hs : (fieldScan evm f.envNames efv0).2 with
    | none =>
      simp only [hs] at h
      exact hstep (ih _ _ hsn h)
    | some nv =>
      obtain ⟨n, v'⟩ := nv
      simp only [hs] at h
      by_cases hc : f.isComplex
      · rw [if_pos hc] at h
        cases hjl : jl v' with
        | ok j =>
          rw [hjl] at h
          exact hstep (ih _ _ hsn h)
        | error e =>
          rw [hjl] at h
          exact absurd h (by simp)
      · rw [if_neg hc] at h
        exact hstep (ih _ _ hsn h)

theorem pf_efv_keep (jl : String → Except String JsonVal)
    (evm : String → Option (Option String)) (fields : List FieldDecl) (d0 d : Dict)
    (efv0 efv : List (String × Option String)) (k : String)
    (hk : ∀ f ∈ fields, ∀ n ∈ f.envNames, n ≠ k)
    (h : processFields jl evm fields d0 efv0 = .ok (d, efv)) :
    dget efv k = dget efv0 k := by
  induction fields generalizing d0 efv0 with
  | nil =>
    simp only [processFields, Except.ok.injEq, Prod.mk.injEq] at h
    rw [h.2]
  | cons f rest ih =>
    simp only [processFields] at h
    have hkeep := fieldScan_fst_keep evm f.envNames efv0 k (hk f (by simp))
    have hkrest : ∀ g ∈ rest, ∀ n ∈ g.envNames, n ≠ k :=
      fun g hg => hk g (by simp [hg])
    cases hs : (fieldScan evm f.envNames efv0).2 with
    | none =>
      simp only [hs] at h
      rw [ih _ _ hkrest h]
      exact hkeep
    | some nv =>
      obtain ⟨n, v'⟩ := nv
      simp only [hs] at h
      by_cases hc : f.isComplex
      · rw [if_pos hc] at h
        cases hjl : jl v' with
        | ok j =>
          rw [hjl] at h
          rw [ih _ _ hkrest h]
          exact hkeep
        | error e =>
          rw [hjl] at h
          exact absurd h (by simp)
      · rw [if_neg hc] at h
        rw [ih _ _ hkrest h]
        exact hkeep

theorem pf_efv_erased (jl : String → Except String JsonVal)
    (evm : String → Option (Option String)) (fields : List FieldDecl) (d0 d : Dict)
    (efv0 efv : List (String × Option String)) (f : FieldDecl) (k : String)
    (hf : f ∈ fields) (hone : f.envNames = [k]) (hn : nodupKeys efv0)
    (h : processFields jl evm fields d0 efv0 = .ok (d, efv)) :
    dget efv k = Option.none := by
  induction fields generalizing d0 efv0 with
  | nil => exact absurd hf (by simp)
  | cons g rest ih =>
    simp only [processFields] at h
    have hsn := fieldScan_fst_nodup evm g.envNames efv0 hn
    rcases List.mem_cons.1 hf with hfg | hfr
    · subst hfg
      have hfst : (fieldScan evm f.envNames efv0).1 = derase efv0 k := by
        rw [hone]
        exact fieldScan_fst_single evm k efv0
      have hnone : dget (fieldScan evm f.envNames efv0).1 k = Option.none := by
        rw [hfst]
        exact dget_derase_self efv0 k hn
      cases hk : dget efv k with
      | none => rfl
      | some w =>
        exfalso
        cases hs : (fieldScan evm f.envNames efv0).2 with
        | none =>
          simp only [hs] at h
          rw [pf_efv_mono jl evm rest d0 d _ efv k w hsn h hk] at hnone
          exact Option.noConfusion hnone
        | some nv =>
          obtain ⟨n, v⟩ := nv
          simp only [hs] at h
          by_cases hc : f.isComplex
          · rw [if_pos hc] at h
            cases hjl : jl v with
            | ok j =>
              rw [hjl] at h
              rw [pf_efv_mono jl evm rest _ d _ efv k w hsn h hk] at hnone
              exact Option.noConfusion hnone
            | error e =>
              rw [hjl] at h
              exact absurd h (by simp)
          · rw [if_neg hc] at h
            rw [pf_efv_mono jl evm rest _ d _ efv k w hsn h hk] at hnone
            exact Option.noConfusion hnone
    · cases hs : (fieldScan evm g.envNames efv0).2 with
      | none =>
        simp only [hs] at h
        exact ih _ _ hfr hsn h
      | some nv =>
        obtain ⟨n, v⟩ := nv
        simp only [hs] at h
        by_cases hc : g.isComplex
        · rw [if_pos hc] at h
          cases hjl : jl v with
          | ok j =>
            rw [hjl] at h
            exact ih _ _ hfr hsn h
          | error e =>
            rw [hjl] at h
            exact absurd h (by simp)
        · rw [if_neg hc] at h
          exact ih _ _ hfr hsn h

theorem pf_cons_eq (jl : String → Except String JsonVal)
    (evm : String → Option (Option String)) (f : FieldDecl) (rest : List FieldDecl)
    (d0 : Dict) (efv0 : List (String × Option String)) :
    processFields jl evm (f :: rest) d0 efv0 =
      match fieldOutcome jl evm f with
      | .error e => .error e
      | .ok Option.none => processFields jl evm rest d0 (fieldScan evm f.envNames efv0).1
      | .ok (some v) =>
          processFields jl evm rest (dinsert d0 f.falias v) (fieldScan evm f.envNames efv0).1 := by
  simp only [processFields, fieldOutcome]
  rw [← fieldScan_snd evm f.envNames efv0]
  cases hs : (fieldScan evm f.envNames efv0).2 with
  | none => simp [hs]
  | some nv =>
    obtain ⟨n, v⟩ := nv
    by_cases hc : f.isComplex
    · cases hjl : jl v with
      | ok j => simp [hs, hc, hjl]
      | error e => simp [hs, hc, hjl]
    · simp [hs, hc]

theorem pf_d_keep (jl : String → Except String JsonVal)
    (evm : String → Option (Option String)) (fields : List FieldDecl) (d0 d : Dict)
    (efv0 efv : List (String × Option String)) (k : String)
    (hk : ∀ f ∈ fields, f.falias ≠ k)
    (h : processFields jl evm fields d0 efv0 = .ok (d, efv)) :
    dget d k = dget d0 k := by
  induction fields generalizing d0 efv0 with
  | nil =>
    simp only [processFields, Except.ok.injEq, Prod.mk.injEq] at h
    rw [h.1]
  | cons f rest ih =>
    rw [pf_cons_eq] at h
    have hkrest : ∀ g ∈ rest, g.falias ≠ k := fun g hg => hk g (by simp [hg])
    cases ho : fieldOutcome jl evm f with
    | error e =>
      rw [ho] at h
      exact absurd h (by simp)
    | ok ov =>
      rw [ho] at h
      cases ov with
      | none => exact ih _ _ hkrest h
      | some v =>
        rw [ih _ _ hkrest h]
        exact dget_dinsert_ne d0 f.falias k v (fun hh => (hk f (by simp)) hh.symm)

theorem pf_d_nodup (jl : String → Except String JsonVal)
    (evm : String → Option (Option String)) (fields : List FieldDecl) (d0 d : Dict)
    (efv0 efv : List (String × Option String)) (hn : nodupKeys d0)
    (h : processFields jl evm fields d0 efv0 = .ok (d, efv)) : nodupKeys d := by
  induction fields generalizing d0 efv0 with
  | nil =>
    simp only [processFields, Except.ok.injEq, Prod.mk.injEq] at h
    rw [← h.1]
    exact hn
  | cons f rest ih =>
    rw [pf_cons_eq] at h
    cases ho : fieldOutcome jl evm f with
    | error e =>
      rw [ho] at h
      exact absurd h (by simp)
    | ok ov =>
      rw [ho] at h
      cases ov with
      | none => exact ih _ _ hn h
      | some v => exact ih _ _ (nodupKeys_dinsert d0 f.falias v hn) h

theorem pf_d_val (jl : String → Except String JsonVal)
    (evm : String → Option (Option String)) (fields : List FieldDecl) (d0 d : Dict)
    (efv0 efv : List (String × Option String)) (f : FieldDecl) (ov : Option PyVal)
    (halias : (fields.map FieldDecl.falias).Nodup) (hf : f ∈ fields)
    (ho : fieldOutcome jl evm f = .ok ov)
    (h : processFields jl evm fields d0 efv0 = .ok (d, efv)) :
    dget d f.falias = match ov with
      | some v => some v
      | Option.none => dget d0 f.falias := by
  induction fields generalizing d0 efv0 with
  | nil => exact absurd hf (by simp)
  | cons g rest ih =>
    rw [pf_cons_eq] at h
    rw [List.map_cons, List.nodup_cons] at halias
    rcases List.mem_cons.1 hf with hfg | hfr
    · subst hfg
      rw [ho] at h
      have hrest : ∀ g' ∈ rest, g'.falias ≠ f.falias := by
        intro g' hg' hh
        exact halias.1 (hh ▸ List.mem_map_of_mem FieldDecl.falias hg')
      cases ov with
      | none => exact pf_d_keep jl evm rest d0 d _ efv f.falias hrest h
      | some v =>
        rw [pf_d_keep jl evm rest _ d _ efv f.falias hrest h]
        exact dget_dinsert_self d0 f.falias v
    · have hne : g.falias ≠ f.falias := by
        intro hh
        exact halias.1 (hh ▸ List.mem_map_of_mem FieldDecl.falias hfr)
      cases ho2 : fieldOutcome jl evm g with
      | error e =>
        rw [ho2] at h
        exact absurd h (by simp)
      | ok ov2 =>
        rw [ho2] at h
        cases ov2 with
        | none => exact ih _ _ halias.2 hfr h
        | some v2 =>
          rw [ih _ _ halias.2 hfr h]
          cases ov with
          | some v => rfl
          | none =>
            exact dget_dinsert_ne d0 g.falias f.falias v2 (fun hh => hne hh.symm)

theorem pf_err (jl : String → Except String JsonVal)
    (evm : String → Option (Option String)) (pre post : List FieldDecl) (f : FieldDecl)
    (d0 : Dict) (efv0 : List (String × Option String)) (e : String)
    (hpre : ∀ g ∈ pre, ∃ ov, fieldOutcome jl evm g = .ok ov)
    (he : fieldOutcome jl evm f = .error e) :
    processFields jl evm (pre ++ f :: post) d0 efv0 = .error e := by
  induction pre generalizing d0 efv0 with
  | nil =>
    rw [List.nil_append, pf_cons_eq, he]
  | cons g pre' ih =>
    rw [List.cons_append, pf_cons_eq]
    obtain ⟨ov, hov⟩ := hpre g (by simp)
    rw [hov]
    have hpre' : ∀ g' ∈ pre', ∃ ov', fieldOutcome jl evm g' = .ok ov' :=
      fun g' hg => hpre g' (by simp [hg])
    cases ov with
    | none => exact ih _ _ hpre'
    | some v => exact ih _ _ hpre'

theorem pe_dget (jl : String → Except String JsonVal)
    (evm : String → Option (Option String)) (d : Dict)
    (efv : List (String × Option String)) (k : String) (hn : nodupKeys efv) :
    dget (processExtras jl evm d efv) k =
      match dget efv k with
      | some v0 => some (extraValue jl evm k v0)
      | Option.none => dget d k := by
  induction efv generalizing d with
  | nil => simp [processExtras, dget]
  | cons kv rest ih =>
    obtain ⟨n, v0⟩ := kv
    rw [nodupKeys, List.map_cons, List.nodup_cons] at hn
    simp only [processExtras]
    rw [ih _ hn.2]
    by_cases hkn : n = k
    · subst hkn
      have hrest : dget rest n = Option.none := dget_eq_none_of_not_mem rest n hn.1
      simp [dget, hrest, dget_dinsert_self]
    · simp [dget, hkn, dget_dinsert_ne d n k _ (fun hh => hkn hh.symm)]

theorem pe_nodup (jl : String → Except String JsonVal)
    (evm : String → Option (Option String)) (d : Dict)
    (efv : List (String × Option String)) (hn : nodupKeys d) :
    nodupKeys (processExtras jl evm d efv) := by
  induction efv generalizing d with
  | nil => exact hn
  | cons kv rest ih =>
    obtain ⟨n, v0⟩ := kv
    exact ih _ (nodupKeys_dinsert d n _ hn)

theorem nodupKeys_envVarsLowered (cs : Bool) (environ : List (String × String)) :
    nodupKeys (envVarsLowered cs environ) := by
  unfold envVarsLowered
  cases cs <;> simp <;> exact nodupKeys_dictOf _

theorem evmOf_eq (cs : Bool) (environ : List (String × String))
    (fileVars : List (String × Option String)) (k : String) :
    evmOf cs environ fileVars k =
      match dget (envVarsLowered cs environ) k with
      | some v => some (some v)
      | Option.none => dget fileVars k := by
  unfold evmOf envVarsMerged
  rw [dget_dunion _ _ k (nodupKeys_map_some _ (nodupKeys_envVarsLowered cs environ))]
  rw [dget_map_some]
  cases dget (envVarsLowered cs environ) k <;> simp

theorem ce_inv (jl : String → Except String JsonVal) (cs : Bool) (fields : List FieldDecl)
    (environ : List (String × String)) (fileVars : List (String × Option String))
    (denv : Dict) (h : customEnvSettingsCall jl cs fields environ fileVars = .ok denv) :
    ∃ d efv, processFields jl (evmOf cs environ fileVars) fields [] fileVars = .ok (d, efv) ∧
      denv = processExtras jl (evmOf cs environ fileVars) d efv := by
  simp only [customEnvSettingsCall] at h
  cases hp : processFields jl (evmOf cs environ fileVars) fields [] fileVars with
  | error e =>
    rw [hp] at h
    exact absurd h (by simp)
  | ok pr =>
    obtain ⟨d, efv⟩ := pr
    rw [hp] at h
    simp only [Except.ok.injEq] at h
    exact ⟨d, efv, rfl, h.symm⟩

theorem ce_ok_nodup (jl : String → Except String JsonVal) (cs : Bool)
    (fields : List FieldDecl) (environ : List (String × String))
    (fileVars : List (String × Option String)) (denv : Dict)
    (h : customEnvSettingsCall jl cs fields environ fileVars = .ok denv) :
    nodupKeys denv := by
  obtain ⟨d, efv, hp, hd⟩ := ce_inv jl cs fields environ fileVars denv h
  rw [hd]
  exact pe_nodup _ _ _ _ (pf_d_nodup _ _ fields [] d fileVars efv nodupKeys_nil hp)

theorem ce_val (jl : String → Except String JsonVal) (cs : Bool) (fields : List FieldDecl)
    (environ : List (String × String)) (fileVars : List (String × Option String))
    (denv : Dict) (f : FieldDecl) (ov : Option PyVal)
    (hfv : nodupKeys fileVars)
    (halias : (fields.map FieldDecl.falias).Nodup)
    (hname : f.envNames = [f.falias])
    (hf : f ∈ fields)
    (ho : fieldOutcome jl (evmOf cs environ fileVars) f = .ok ov)
    (h : customEnvSettingsCall jl cs fields environ fileVars = .ok denv) :
    dget denv f.falias = ov := by
  obtain ⟨d, efv, hp, hd⟩ := ce_inv jl cs fields environ fileVars denv h
  have hefv : dget efv f.falias = Option.none :=
    pf_efv_erased jl _ fields [] d fileVars efv f f.falias hf hname hfv hp
  have hdv := pf_d_val jl _ fields [] d fileVars efv f ov halias hf ho hp
  rw [hd, pe_dget jl _ d efv f.falias (pf_efv_nodup jl _ fields [] d fileVars efv hfv hp)]
  rw [hefv, hdv]
  cases ov <;> simp [dget]

theorem ce_extra (jl : String → Except String JsonVal) (cs : Bool) (fields : List FieldDecl)
    (environ : List (String × String)) (fileVars : List (String × Option String))
    (denv : Dict) (k : String) (v0 : Option String)
    (hfv : nodupKeys fileVars)
    (hundecl : ∀ g ∈ fields, ∀ n ∈ g.envNames, n ≠ k)
    (hk : dget fileVars k = some v0)
    (h : customEnvSettingsCall jl cs fields environ fileVars = .ok denv) :
    dget denv k = some (extraValue jl (evmOf cs environ fileVars) k v0) := by
  obtain ⟨d, efv, hp, hd⟩ := ce_inv jl cs fields environ fileVars denv h
  have hefv : dget efv k = dget fileVars k :=
    pf_efv_keep jl _ fields [] d fileVars efv k hundecl hp
  rw [hd, pe_dget jl _ d efv k (pf_efv_nodup jl _ fields [] d fileVars efv hfv hp)]
  rw [hefv, hk]

theorem ce_extra_none (jl : String → Except String JsonVal) (cs : Bool)
    (fields : List FieldDecl) (environ : List (String × String))
    (fileVars : List (String × Option String)) (denv : Dict) (k : String)
    (hfv : nodupKeys fileVars)
    (hundecl : ∀ g ∈ fields, ∀ n ∈ g.envNames, n ≠ k)
    (halias : ∀ g ∈ fields, g.falias ≠ k)
    (hk : dget fileVars k = Option.none)
    (h : customEnvSettingsCall jl cs fields environ fileVars = .ok denv) :
    dget denv k = Option.none := by
  obtain ⟨d, efv, hp, hd⟩ := ce_inv jl cs fields environ fileVars denv h
  have hefv : dget efv k = dget fileVars k :=
    pf_efv_keep jl _ fields [] d fileVars efv k hundecl hp
  rw [hd, pe_dget jl _ d efv k (pf_efv_nodup jl _ fields [] d fileVars efv hfv hp)]
  rw [hefv, hk]
  exact pf_d_keep jl _ fields [] d fileVars efv k halias hp

theorem ce_err (jl : String → Except String JsonVal) (cs : Bool)
    (pre post : List FieldDecl) (f : FieldDecl) (environ : List (String × String))
    (fileVars : List (String × Option String)) (e : String)
    (hpre : ∀ g ∈ pre, ∃ ov, fieldOutcome jl (evmOf cs environ fileVars) g = .ok ov)
    (he : fieldOutcome jl (evmOf cs environ fileVars) f = .error e) :
    customEnvSettingsCall jl cs (pre ++ f :: post) environ fileVars = .error e := by
  simp only [customEnvSettingsCall]
  rw [pf_err jl _ pre post f [] fileVars e hpre he]

theorem dget_fields_map (fields : List FieldDecl) (g : FieldDecl → PyVal) (f : FieldDecl)
    (halias : (fields.map FieldDecl.falias).Nodup) (hf : f ∈ fields) :
    dget (fields.map (fun f2 => (f2.falias, g f2))) f.falias = some (g f) := by
  induction fields with
  | nil => exact absurd hf (by simp)
  | cons f0 rest ih =>
    rw [List.map_cons, List.nodup_cons] at halias
    rcases List.mem_cons.1 hf with hf0 | hfr
    · subst hf0
      simp [dget]
    · have hne : f0.falias ≠ f.falias := by
        intro hh
        exact halias.1 (hh ▸ List.mem_map_of_mem FieldDecl.falias hfr)
      simp [dget, hne, ih halias.2 hfr]

theorem dget_fields_map_none (fields : List FieldDecl) (g : FieldDecl → PyVal) (k : String)
    (hk : ∀ f ∈ fields, f.falias ≠ k) :
    dget (fields.map (fun f2 => (f2.falias, g f2))) k = Option.none := by
  induction fields with
  | nil => rfl
  | cons f0 rest ih =>
    simp [dget, hk f0 (by simp), ih (fun f hf => hk f (by simp [hf]))]

theorem bv_inv (jl : String → Except String JsonVal) (cs : Bool) (fields : List FieldDecl)
    (explicit common : Dict) (environ : List (String × String))
    (fileVars : List (String × Option String)) (merged : Dict)
    (h : buildValues jl cs fields explicit common environ fileVars = .ok merged) :
    ∃ envd, customEnvSettingsCall jl cs fields environ fileVars = .ok envd ∧
      merged = dunion (dunion (dunion ([] : Dict) common) envd) explicit := by
  simp only [buildValues] at h
  cases hce : customEnvSettingsCall jl cs fields environ fileVars with
  | error e =>
    rw [hce] at h
    exact absurd h (by simp)
  | ok envd =>
    rw [hce] at h
    simp only [Except.ok.injEq] at h
    exact ⟨envd, rfl, h.symm⟩

theorem bv_get (explicit common : Dict) (envd : Dict) (k : String)
    (hexp : nodupKeys explicit) (hcom : nodupKeys common) (henvd : nodupKeys envd) :
    dget (dunion (dunion (dunion ([] : Dict) common) envd) explicit) k =
      match dget explicit k with
      | some v => some v
      | Option.none =>
        match dget envd k with
        | some v => some v
        | Option.none => dget common k := by
  rw [dget_dunion _ explicit k hexp, dget_dunion _ envd k henvd,
    dget_dunion _ common k hcom]
  cases dget explicit k <;> cases dget envd k <;> cases dget common k <;> simp [dget]

theorem rc_inv (jl : String → Except String JsonVal) (cs : Bool) (fields : List FieldDecl)
    (explicit common : Dict) (environ : List (String × String))
    (fileVars : List (String × Option String)) (r : Dict)
    (h : resolveConfig jl cs fields explicit common environ fileVars = .ok r) :
    ∃ merged, buildValues jl cs fields explicit common environ fileVars = .ok merged ∧
      r = (fields.map (fun f => (f.falias, (dget merged f.falias).getD f.default))) ++
        merged.filter (fun kv => !(fields.any (fun f => f.falias == kv.1))) := by
  simp only [resolveConfig] at h
  cases hbv : buildValues jl cs fields explicit common environ fileVars with
  | error e =>
    rw [hbv] at h
    exact absurd h (by simp)
  | ok merged =>
    rw [hbv] at h
    simp only [Except.ok.injEq] at h
    exact ⟨merged, rfl, h.symm⟩

theorem rc_field_get (fields : List FieldDecl) (merged : Dict) (f : FieldDecl)
    (halias : (fields.map FieldDecl.falias).Nodup) (hf : f ∈ fields) :
    dget ((fields.map (fun f2 => (f2.falias, (dget merged f2.falias).getD f2.default))) ++
        merged.filter (fun kv => !(fields.any (fun f2 => f2.falias == kv.1)))) f.falias =
      some ((dget merged f.falias).getD f.default) := by
  rw [dget_append]
  rw [dget_fields_map fields (fun f2 => (dget merged f2.falias).getD f2.default) f halias hf]

theorem rc_extra_get (fields : List FieldDecl) (merged : Dict) (k : String)
    (hk : ∀ f ∈ fields, f.falias ≠ k) :
    dget ((fields.map (fun f2 => (f2.falias, (dget merged f2.falias).getD f2.default))) ++
        merged.filter (fun kv => !(fields.any (fun f2 => f2.falias == kv.1)))) k =
      dget merged k := by
  rw [dget_append]
  rw [dget_fields_map_none fields _ k hk]
  have hany : fields.any (fun f2 => f2.falias == k) = false := by
    rw [List.any_eq_false]
    intro f2 hf2
    simp [hk f2 hf2]
  rw [dget_filter_keep merged _ k (fun v => by simp [hany])]

theorem fieldOutcome_single (jl : String → Except String JsonVal)
    (evm : String → Option (Option String)) (f : FieldDecl)
    (hname : f.envNames = [f.falias]) :
    fieldOutcome jl evm f =
      match (evm f.falias).join with
      | Option.none => .ok Option.none
      | some v =>
        if f.isComplex then
          match jl v with
          | .ok j => .ok (some (PyVal.json j))
          | .error _ => .error ("error parsing JSON for \"" ++ f.falias ++ "\"")
        else .ok (some (PyVal.str v)) := by
  unfold fieldOutcome
  rw [hname]
  simp only [scanFound]
  cases (evm f.falias).join <;> simp

/-- C1: for every declared schema field the effective resolved value follows
the source precedence explicit-overrides > live-environment > settings-file >
declared-default: an explicit override wins regardless of the other sources;
a field present in both file and live environment takes the live-environment
value; a field present in the file only takes the file value; a field present
in no source takes its declared default. -/
theorem spec_C1 (jl : String → Except String JsonVal) (cs : Bool) (fields : List FieldDecl)
    (explicit common : Dict) (environ : List (String × String))
    (fileVars : List (String × Option String)) (r : Dict) (f : FieldDecl)
    (hfv : nodupKeys fileVars) (hexp : nodupKeys explicit) (hcom : nodupKeys common)
    (halias : (fields.map FieldDecl.falias).Nodup)
    (hname : f.envNames = [f.falias])
    (hf : f ∈ fields)
    (hres : resolveConfig jl cs fields explicit common environ fileVars = .ok r) :
    (∀ v, dget explicit f.falias = some v → dget r f.falias = some v)
    ∧ (∀ v, dget explicit f.falias = Option.none →
        dget (envVarsLowered cs environ) f.falias = some v →
        (f.isComplex = false → dget r f.falias = some (PyVal.str v))
        ∧ (∀ j, jl v = .ok j → f.isComplex = true → dget r f.falias = some (PyVal.json j)))
    ∧ (∀ v, dget explicit f.falias = Option.none →
        dget (envVarsLowered cs environ) f.falias = Option.none →
        dget fileVars f.falias = some (some v) → f.isComplex = false →
        dget r f.falias = some (PyVal.str v))
    ∧ (dget explicit f.falias = Option.none →
        dget (envVarsLowered cs environ) f.falias = Option.none →
        dget fileVars f.falias = Option.none →
        dget common f.falias = Option.none →
        dget r f.falias = some f.default) := by
  obtain ⟨merged, hbv, hrr⟩ := rc_inv jl cs fields explicit common environ fileVars r hres
  obtain ⟨envd, hce, hmg⟩ := bv_inv jl cs fields explicit common environ fileVars merged hbv
  have henvd := ce_ok_nodup jl cs fields environ fileVars envd hce
  have hrget : dget r f.falias = some ((dget merged f.falias).getD f.default) := by
    rw [hrr]
    exact rc_field_get fields merged f halias hf
  have hmget : dget merged f.falias =
      match dget explicit f.falias with
      | some v => some v
      | Option.none =>
        match dget envd f.falias with
        | some v => some v
        | Option.none => dget common f.falias := by
    rw [hmg]
    exact bv_get explicit common envd f.falias hexp hcom henvd
  refine ⟨?p1, ?p2, ?p3, ?p4⟩
  case p1 =>
    intro v hv
    rw [hrget, hmget, hv]
    rfl
  case p2 =>
    intro v hexpn henvv
    have hevm : evmOf cs environ fileVars f.falias = some (some v) := by
      rw [evmOf_eq, henvv]
    constructor
    · intro hcplx
      have ho : fieldOutcome jl (evmOf cs environ fileVars) f = .ok (some (PyVal.str v)) := by
        rw [fieldOutcome_single jl _ f hname, hevm]
        simp [hcplx]
      have henvget := ce_val jl cs fields environ fileVars envd f (some (PyVal.str v))
        hfv halias hname hf ho hce
      rw [hrget, hmget, hexpn, henvget]
      rfl
    · intro j hj hcplx
      have ho : fieldOutcome jl (evmOf cs environ fileVars) f = .ok (some (PyVal.json j)) := by
        rw [fieldOutcome_single jl _ f hname, hevm]
        simp [hcplx, hj]
      have henvget := ce_val jl cs fields environ fileVars envd f (some (PyVal.json j))
        hfv halias hname hf ho hce
      rw [hrget, hmget, hexpn, henvget]
      rfl
  case p3 =>
    intro v hexpn henvn hfile hcplx
    have hevm : evmOf cs environ fileVars f.falias = some (some v) := by
      rw [evmOf_eq, henvn, hfile]
    have ho : fieldOutcome jl (evmOf cs environ fileVars) f = .ok (some (PyVal.str v)) := by
      rw [fieldOutcome_single jl _ f hname, hevm]
      simp [hcplx]
    have henvget := ce_val jl cs fields environ fileVars envd f (some (PyVal.str v))
      hfv halias hname hf ho hce
    rw [hrget, hmget, hexpn, henvget]
    rfl
  case p4 =>
    intro hexpn henvn hfile hcomn
    have hevm : evmOf cs environ fileVars f.falias = Option.none := by
      rw [evmOf_eq, henvn, hfile]
    have ho : fieldOutcome jl (evmOf cs environ fileVars) f = .ok Option.none := by
      rw [fieldOutcome_single jl _ f hname, hevm]
      rfl
    have henvget := ce_val jl cs fields environ fileVars envd f Option.none
      hfv halias hname hf ho hce
    rw [hrget, hmget, hexpn, henvget, hcomn]
    rfl

/-- C1 witness: with `PORT=9000` in the live environment and `port=8000` in
the settings file and no explicit override, the resolved `port` is the
live-environment value. -/
theorem spec_C1_witness : dget C1res "port" = some (PyVal.str "9000") := by
  have h := spec_C1 jl0 false configSchema [] [] [("PORT", "9000")]
    [("port", some "8000")] C1res portF (by decide) (by decide) (by decide)
    (by decide) rfl (by simp [configSchema, portF]) rfl
  exact (h.2.1 "9000" rfl rfl).1 rfl

theorem rc_err (jl : String → Except String JsonVal) (cs : Bool) (fields : List FieldDecl)
    (explicit common : Dict) (environ : List (String × String))
    (fileVars : List (String × Option String)) (e : String)
    (h : customEnvSettingsCall jl cs fields environ fileVars = .error e) :
    resolveConfig jl cs fields explicit common environ fileVars = .error e := by
  simp only [resolveConfig, buildValues]
  rw [h]

/-- C2: for a declared complex-typed field supplied with a raw string by the
live environment or the settings file, a non-JSON string makes the whole
resolution fail with a decoding error naming the offending key, and a valid
JSON string decodes to the equivalent structured value. -/
theorem spec_C2 (jl : String → Except String JsonVal) (cs : Bool)
    (pre post : List FieldDecl) (f : FieldDecl) (explicit common : Dict)
    (environ : List (String × String)) (fileVars : List (String × Option String))
    (v : String)
    (hfv : nodupKeys fileVars)
    (halias : ((pre ++ f :: post).map FieldDecl.falias).Nodup)
    (hname : f.envNames = [f.falias])
    (hcplx : f.isComplex = true)
    (hpre : ∀ g ∈ pre, ∃ ov, fieldOutcome jl (evmOf cs environ fileVars) g = .ok ov)
    (hsupplied : dget (envVarsLowered cs environ) f.falias = some v ∨
      (dget (envVarsLowered cs environ) f.falias = Option.none ∧
        dget fileVars f.falias = some (some v))) :
    (∀ e, jl v = .error e →
      resolveConfig jl cs (pre ++ f :: post) explicit common environ fileVars =
        .error ("error parsing JSON for \"" ++ f.falias ++ "\""))
    ∧ (∀ j denv, jl v = .ok j →
        customEnvSettingsCall jl cs (pre ++ f :: post) environ fileVars = .ok denv →
        dget denv f.falias = some (PyVal.json j)) := by
  have hevm : evmOf cs environ fileVars f.falias = some (some v) := by
    rcases hsupplied with hv | ⟨hn, hfile⟩
    · rw [evmOf_eq, hv]
    · rw [evmOf_eq, hn, hfile]
  constructor
  · intro e he
    have ho : fieldOutcome jl (evmOf cs environ fileVars) f =
        .error ("error parsing JSON for \"" ++ f.falias ++ "\"") := by
      rw [fieldOutcome_single jl _ f hname, hevm]
      simp [hcplx, he]
    exact rc_err jl cs _ explicit common environ fileVars _
      (ce_err jl cs pre post f environ fileVars _ hpre ho)
  · intro j denv hj hce
    have ho : fieldOutcome jl (evmOf cs environ fileVars) f = .ok (some (PyVal.json j)) := by
      rw [fieldOutcome_single jl _ f hname, hevm]
      simp [hcplx, hj]
    exact ce_val jl cs (pre ++ f :: post) environ fileVars denv f (some (PyVal.json j))
      hfv halias hname (by simp) ho hce

/-- C2 witness: with `SUPERUSERS=notjson` in the live environment the whole
resolution fails naming `superusers`; with `SUPERUSERS=[1]` the source
contribution carries the decoded JSON array. -/
theorem spec_C2_witness :
    resolveConfig jl0 false configSchema [] [] [("SUPERUSERS", "notjson")] [] =
      .error ("error parsing JSON for \"superusers\"")
    ∧ dget (okOr (customEnvSettingsCall jl0 false configSchema [("SUPERUSERS", "[1]")] []))
        "superusers" = some (PyVal.json (JsonVal.arr [JsonVal.num 1])) := by
  constructor
  · have h := spec_C2 jl0 false
      (configSchema.take 9) (configSchema.drop 10) superusersF [] []
      [("SUPERUSERS", "notjson")] [] "notjson" (by decide) (by decide) rfl rfl
      (by
        intro g hg
        fin_cases hg <;> exact ⟨Option.none, rfl⟩)
      (Or.inl rfl)
    exact h.1 "invalid json" rfl
  · have h := spec_C2 jl0 false
      (configSchema.take 9) (configSchema.drop 10) superusersF [] []
      [("SUPERUSERS", "[1]")] [] "[1]" (by decide) (by decide) rfl rfl
      (by
        intro g hg
        fin_cases hg <;> exact ⟨Option.none, rfl⟩)
      (Or.inl rfl)
    exact h.2 (JsonVal.arr [JsonVal.num 1]) _ rfl rfl

/-- C4 counterexample: an undeclared variable present only in the live
environment (`my_custom=1`, settings file empty) does not survive into the
resolved settings — the resolution succeeds but the key is absent, against
the claim that such variables are passed through. -/
theorem spec_C4_cex :
    resolveConfig jl0 false configSchema [] [] [("my_custom", "1")] [] = .ok C4res
    ∧ dget C4res "my_custom" = Option.none := ⟨rfl, rfl⟩

/-- C4 (amended): an undeclared key found in the settings file is passed
through into the resolved settings under the same key name (its value being
the leniently processed extra value); an undeclared variable present only in
the live environment does not survive — the extras loop walks only the
residual settings-file mapping. -/
theorem spec_C4 (jl : String → Except String JsonVal) (cs : Bool) (fields : List FieldDecl)
    (explicit common : Dict) (environ : List (String × String))
    (fileVars : List (String × Option String)) (r : Dict) (k : String)
    (hfv : nodupKeys fileVars) (hexp : nodupKeys explicit) (hcom : nodupKeys common)
    (hnotname : ∀ g ∈ fields, ∀ n ∈ g.envNames, n ≠ k)
    (hnotalias : ∀ g ∈ fields, g.falias ≠ k)
    (hnotexp : dget explicit k = Option.none)
    (hnotcom : dget common k = Option.none)
    (hres : resolveConfig jl cs fields explicit common environ fileVars = .ok r) :
    (∀ v0, dget fileVars k = some v0 →
      dget r k = some (extraValue jl (evmOf cs environ fileVars) k v0))
    ∧ (dget fileVars k = Option.none → dget r k = Option.none) := by
  obtain ⟨merged, hbv, hrr⟩ := rc_inv jl cs fields explicit common environ fileVars r hres
  obtain ⟨envd, hce, hmg⟩ := bv_inv jl cs fields explicit common environ fileVars merged hbv
  have henvd := ce_ok_nodup jl cs fields environ fileVars envd hce
  have hrk : dget r k = dget merged k := by
    rw [hrr]
    exact rc_extra_get fields merged k hnotalias
  have hmk : dget merged k =
      match dget explicit k with
      | some v => some v
      | Option.none =>
        match dget envd k with
        | some v => some v
        | Option.none => dget common k := by
    rw [hmg]
    exact bv_get explicit common envd k hexp hcom henvd
  constructor
  · intro v0 hk
    have he := ce_extra jl cs fields environ fileVars envd k v0 hfv hnotname hk hce
    rw [hrk, hmk, hnotexp, he]
  · intro hk
    have he := ce_extra_none jl cs fields environ fileVars envd k hfv hnotname
      hnotalias hk hce
    rw [hrk, hmk, hnotexp, he, hnotcom]

/-- C4 witness (amended claim): the undeclared file key `custom_key`
survives into the resolved settings under the same name. -/
theorem spec_C4_witness :
    dget C5res "custom_key" =
      some (extraValue jl0 (evmOf false [("CUSTOM_KEY", "[1]")] [("custom_key", some "")])
        "custom_key" (some "")) := by
  have h := spec_C4 jl0 false configSchema [] [] [("CUSTOM_KEY", "[1]")]
    [("custom_key", some "")] C5res "custom_key" (by decide) (by decide) (by decide)
    (by
      intro g hg
      fin_cases hg <;> simp)
    (by
      intro g hg
      fin_cases hg <;> simp)
    rfl rfl rfl
  exact h.1 (some "") rfl

theorem resolved_extra_val (jl : String → Except String JsonVal) (cs : Bool)
    (fields : List FieldDecl) (explicit common : Dict) (environ : List (String × String))
    (fileVars : List (String × Option String)) (r : Dict) (k : String) (v0 : Option String)
    (hfv : nodupKeys fileVars) (hexp : nodupKeys explicit) (hcom : nodupKeys common)
    (hnotname : ∀ g ∈ fields, ∀ n ∈ g.envNames, n ≠ k)
    (hnotalias : ∀ g ∈ fields, g.falias ≠ k)
    (hnotexp : dget explicit k = Option.none)
    (hres : resolveConfig jl cs fields explicit common environ fileVars = .ok r)
    (hk : dget fileVars k = some v0) :
    dget r k = some (extraValue jl (evmOf cs environ fileVars) k v0) := by
  obtain ⟨merged, hbv, hrr⟩ := rc_inv jl cs fields explicit common environ fileVars r hres
  obtain ⟨envd, hce, hmg⟩ := bv_inv jl cs fields explicit common environ fileVars merged hbv
  have henvd := ce_ok_nodup jl cs fields environ fileVars envd hce
  have hrk : dget r k = dget merged k := by
    rw [hrr]
    exact rc_extra_get fields merged k hnotalias
  have hmk : dget merged k =
      match dget explicit k with
      | some v => some v
      | Option.none =>
        match dget envd k with
        | some v => some v
        | Option.none => dget common k := by
    rw [hmg]
    exact bv_get explicit common envd k hexp hcom henvd
  have he := ce_extra jl cs fields environ fileVars envd k v0 hfv hnotname hk hce
  rw [hrk, hmk, hnotexp, he]

/-- C5: an undeclared settings-file key with empty or absent value adopts the
value of a same-named live-environment variable; the adopted raw value is
JSON-decoded opportunistically and a decode failure silently keeps the raw
string (likewise for a non-empty file value, which is never overridden by
the live environment). -/
theorem spec_C5 (jl : String → Except String JsonVal) (cs : Bool) (fields : List FieldDecl)
    (explicit common : Dict) (environ : List (String × String))
    (fileVars : List (String × Option String)) (r : Dict) (k : String) (v0 : Option String)
    (hfv : nodupKeys fileVars) (hexp : nodupKeys explicit) (hcom : nodupKeys common)
    (hnotname : ∀ g ∈ fields, ∀ n ∈ g.envNames, n ≠ k)
    (hnotalias : ∀ g ∈ fields, g.falias ≠ k)
    (hnotexp : dget explicit k = Option.none)
    (hres : resolveConfig jl cs fields explicit common environ fileVars = .ok r)
    (hkfile : dget fileVars k = some v0) :
    ((v0 = Option.none ∨ v0 = some "") →
      ∀ w, dget (envVarsLowered cs environ) k = some w → w ≠ "" →
        (∀ j, jl w = .ok j → dget r k = some (PyVal.json j))
        ∧ (∀ e, jl w = .error e → dget r k = some (PyVal.str w)))
    ∧ (∀ s, v0 = some s → s ≠ "" →
        (∀ j, jl s = .ok j → dget r k = some (PyVal.json j))
        ∧ (∀ e, jl s = .error e → dget r k = some (PyVal.str s))) := by
  have hbase : dget r k = some (extraValue jl (evmOf cs environ fileVars) k v0) :=
    resolved_extra_val jl cs fields explicit common environ fileVars r k v0
      hfv hexp hcom hnotname hnotalias hnotexp hres hkfile
  constructor
  · intro hv0 w henv hw
    have hevm : evmOf cs environ fileVars k = some (some w) := by
      rw [evmOf_eq, henv]
    have hval : extraValue jl (evmOf cs environ fileVars) k v0 =
        match jl w with
        | .ok j => PyVal.json j
        | .error _ => PyVal.str w := by
      rcases hv0 with h | h <;> subst h <;>
        simp only [extraValue, hevm] <;> simp [hw]
    constructor
    · intro j hj
      rw [hbase, hval, hj]
    · intro e he
      rw [hbase, hval, he]
  · intro s hs hsne
    subst hs
    have hval : extraValue jl (evmOf cs environ fileVars) k (some s) =
        match jl s with
        | .ok j => PyVal.json j
        | .error _ => PyVal.str s := by
      simp only [extraValue]
      simp [hsne]
    constructor
    · intro j hj
      rw [hbase, hval, hj]
    · intro e he
      rw [hbase, hval, he]

/-- C5 witness: the undeclared file key `custom_key` has the empty value,
`CUSTOM_KEY=[1]` exists in the live environment, so the live value is
adopted and JSON-decoded. -/
theorem spec_C5_witness :
    dget C5res "custom_key" = some (PyVal.json (JsonVal.arr [JsonVal.num 1])) := by
  have h := spec_C5 jl0 false configSchema [] [] [("CUSTOM_KEY", "[1]")]
    [("custom_key", some "")] C5res "custom_key" (some "") (by decide) (by decide)
    (by decide)
    (by
      intro g hg
      fin_cases hg <;> simp)
    (by
      intro g hg
      fin_cases hg <;> simp)
    rfl rfl rfl
  exact ((h.1 (Or.inr rfl) "[1]" rfl (by decide)).1 (JsonVal.arr [JsonVal.num 1]) rfl)

/-- C10: reading an attribute that is neither a declared field nor a stored
extra key on a resolved settings object yields `None` (the `__getattr__`
fallback returns `self.__dict__.get(name)`), so missing-key attribute access
never raises. -/
theorem spec_C10 (jl : String → Except String JsonVal) (cs : Bool) (fields : List FieldDecl)
    (explicit common : Dict) (environ : List (String × String))
    (fileVars : List (String × Option String)) (r : Dict) (name : String)
    (hfv : nodupKeys fileVars) (hexp : nodupKeys explicit) (hcom : nodupKeys common)
    (hnotname : ∀ g ∈ fields, ∀ n ∈ g.envNames, n ≠ name)
    (hnotalias : ∀ g ∈ fields, g.falias ≠ name)
    (hnotfile : dget fileVars name = Option.none)
    (hnotexp : dget explicit name = Option.none)
    (hnotcom : dget common name = Option.none)
    (hres : resolveConfig jl cs fields explicit common environ fileVars = .ok r) :
    configGetattr r name = PyVal.vnone := by
  obtain ⟨merged, hbv, hrr⟩ := rc_inv jl cs fields explicit common environ fileVars r hres
  obtain ⟨envd, hce, hmg⟩ := bv_inv jl cs fields explicit common environ fileVars merged hbv
  have henvd := ce_ok_nodup jl cs fields environ fileVars envd hce
  have hrk : dget r name = dget merged name := by
    rw [hrr]
    exact rc_extra_get fields merged name hnotalias
  have hmk : dget merged name =
      match dget explicit name with
      | some v => some v
      | Option.none =>
        match dget envd name with
        | some v => some v
        | Option.none => dget common name := by
    rw [hmg]
    exact bv_get explicit common envd name hexp hcom henvd
  have he := ce_extra_none jl cs fields environ fileVars envd name hfv hnotname
    hnotalias hnotfile hce
  unfold configGetattr
  rw [hrk, hmk, hnotexp, he, hnotcom]

/-- C10 witness: with no sources at all, accessing the unknown attribute
`does_not_exist` on the resolved settings yields `None`. -/
theorem spec_C10_witness : configGetattr C10res "does_not_exist" = PyVal.vnone := by
  exact spec_C10 jl0 false configSchema [] [] [] [] C10res "does_not_exist"
    (by decide) (by decide) (by decide)
    (by
      intro g hg
      fin_cases hg <;> simp)
    (by
      intro g hg
      fin_cases hg <;> simp)
    rfl rfl rfl rfl

/-! ## Lemmas about the driver-selector parsing and bootstrap -/

theorem splitFirstAux_not_contain (c : Char) (l : List Char) (acc : List Char)
    (h : c ∉ l) : splitFirstAux c l acc = Option.none := by
  induction l generalizing acc with
  | nil => rfl
  | cons x xs ih =>
    have hx : ¬ x = c := fun hh => h (by simp [hh])
    simp only [splitFirstAux, if_neg hx]
    exact ih _ (fun hh => h (by simp [hh]))

theorem splitFirstAux_append (c : Char) (l r acc : List Char) (h : c ∉ l) :
    splitFirstAux c (l ++ c :: r) acc =
      some (String.mk (acc.reverse ++ l), String.mk r) := by
  induction l generalizing acc with
  | nil => simp [splitFirstAux]
  | cons x xs ih =>
    have hx : ¬ x = c := fun hh => h (by simp [hh])
    simp only [List.cons_append, splitFirstAux, if_neg hx, List.append_eq]
    rw [ih (x :: acc) (fun hh => h (by simp [hh]))]
    simp

theorem pyPartitionColon_no_colon (s : String) (h : ':' ∉ s.data) :
    pyPartitionColon s = (s, "") := by
  unfold pyPartitionColon
  rw [splitFirstAux_not_contain ':' s.data [] h]

theorem pyPartitionColon_split (loc p : String) (h : ':' ∉ loc.data) :
    pyPartitionColon (loc ++ ":" ++ p) = (loc, p) := by
  unfold pyPartitionColon
  have hdata : (loc ++ ":" ++ p).data = loc.data ++ ':' :: p.data := by
    rw [String.data_append, String.data_append, List.append_assoc]
    rfl
  rw [hdata, splitFirstAux_append ':' loc.data p.data [] h]
  simp

theorem splitOnCharAux_append (c : Char) (l r acc : List Char) (h : c ∉ l) :
    splitOnCharAux c (l ++ c :: r) acc =
      String.mk (acc.reverse ++ l) :: splitOnCharAux c r [] := by
  induction l generalizing acc with
  | nil => simp [splitOnCharAux]
  | cons x xs ih =>
    have hx : ¬ x = c := fun hh => h (by simp [hh])
    simp only [List.cons_append, splitOnCharAux, if_neg hx, List.append_eq]
    rw [ih (x :: acc) (fun hh => h (by simp [hh]))]
    simp

theorem splitOnChar_split (q r : String) (h : '.' ∉ q.data) :
    splitOnChar '.' (q ++ "." ++ r) = q :: splitOnChar '.' r := by
  unfold splitOnChar
  have hdata : (q ++ "." ++ r).data = q.data ++ '.' :: r.data := by
    rw [String.data_append, String.data_append, List.append_assoc]
    rfl
  rw [hdata, splitOnCharAux_append '.' q.data r.data [] h]
  simp

theorem init_inv (w : World) (a : Option String) (kwargs : Dict) (st' : Option DriverInst)
    (h : initModel w Option.none a kwargs = .ok st') :
    ∃ envd cfgd ds ctor,
      resolveConfig w.jsonLoads false envSchema [] [] w.environ (w.readEnvFile ".env")
        = .ok envd
      ∧ resolveConfig w.jsonLoads false configSchema kwargs envd w.environ
          (w.readEnvFile (mainEnvFile a (pyValFormat (configGetattr envd "environment"))))
        = .ok cfgd
      ∧ configGetattr cfgd "driver" = PyVal.str ds
      ∧ resolveDriverClass w ds = .ok ctor
      ∧ st' = some (ctor envd cfgd) := by
  simp only [initModel] at h
  cases h1 : resolveConfig w.jsonLoads false envSchema [] [] w.environ (w.readEnvFile ".env") with
  | error e =>
    simp only [h1] at h
    exact absurd h (by simp)
  | ok envd =>
    simp only [h1] at h
    cases h2 : resolveConfig w.jsonLoads false configSchema kwargs envd w.environ
        (w.readEnvFile (mainEnvFile a (pyValFormat (configGetattr envd "environment")))) with
    | error e =>
      simp only [h2] at h
      exact absurd h (by simp)
    | ok cfgd =>
      simp only [h2] at h
      cases h3 : configGetattr cfgd "driver" with
      | str ds =>
        simp only [h3] at h
        cases h4 : resolveDriverClass w ds with
        | error e =>
          simp only [h4] at h
          exact absurd h (by simp)
        | ok ctor =>
          simp only [h4] at h
          simp only [Except.ok.injEq] at h
          exact ⟨envd, cfgd, ds, ctor, rfl, h2, h3, h4, h.symm⟩
      | vnone =>
        simp only [h3] at h
        exact absurd h (by simp)
      | json j =>
        simp only [h3] at h
        exact absurd h (by simp)
      | vint n =>
        simp only [h3] at h
        exact absurd h (by simp)
      | vbool b =>
        simp only [h3] at h
        exact absurd h (by simp)
      | pyDefault t =>
        simp only [h3] at h
        exact absurd h (by simp)

/-- C3: bootstrap is idempotent — a successful first `init` leaves the
global driver set to some instance, and any second `init` call (whatever its
arguments) is a no-op returning that same singleton. -/
theorem spec_C3 (w w2 : World) (a a2 : Option String) (kwargs kwargs2 : Dict)
    (st' : Option DriverInst)
    (h : initModel w Option.none a kwargs = .ok st') :
    (∃ d, st' = some d) ∧ initModel w2 st' a2 kwargs2 = .ok st' := by
  obtain ⟨envd, cfgd, ds, ctor, h1, h2, h3, h4, hst⟩ := init_inv w a kwargs st' h
  subst hst
  exact ⟨⟨ctor envd cfgd, rfl⟩, rfl⟩

/-- C3 witness: the demo world bootstraps to the default-configuration
driver, and a second call returns the same instance. -/
theorem spec_C3_witness :
    (∃ d, (some demoDriver : Option DriverInst) = some d)
    ∧ initModel demoWorld (some demoDriver) Option.none [] = .ok (some demoDriver) :=
  spec_C3 demoWorld demoWorld Option.none Option.none [] [] (some demoDriver) (by rfl)

/-- C6: the driver selector is parsed as location-colon-path: the part before
the first colon names the module and the part after it the dot-separated
attribute path; an omitted or empty colon part is the same as the canonical
path `Driver`; the attribute path splits at dots; and a successful bootstrap
constructs the driver by applying the resolved constructor to the resolved
environment-selector dict and the resolved main settings dict. -/
theorem spec_C6 (w : World) (loc p : String) (hl : ':' ∉ loc.data) :
    pyPartitionColon (loc ++ ":" ++ p) = (loc, p)
    ∧ resolveDriverClass w loc = resolveDriverClass w (loc ++ ":Driver")
    ∧ resolveDriverClass w (loc ++ ":") = resolveDriverClass w (loc ++ ":Driver")
    ∧ (∀ q r : String, '.' ∉ q.data →
        splitOnChar '.' (q ++ "." ++ r) = q :: splitOnChar '.' r)
    ∧ (∀ (a : Option String) (kwargs : Dict) (d : DriverInst),
        initModel w Option.none a kwargs = .ok (some d) →
        ∃ envd cfgd ds ctor,
          resolveConfig w.jsonLoads false envSchema [] [] w.environ (w.readEnvFile ".env")
            = .ok envd
          ∧ resolveConfig w.jsonLoads false configSchema kwargs envd w.environ
              (w.readEnvFile
                (mainEnvFile a (pyValFormat (configGetattr envd "environment"))))
            = .ok cfgd
          ∧ configGetattr cfgd "driver" = PyVal.str ds
          ∧ resolveDriverClass w ds = .ok ctor
          ∧ d = ctor envd cfgd) := by
  have hD : pyPartitionColon (loc ++ ":Driver") = (loc, "Driver") := by
    have := pyPartitionColon_split loc "Driver" hl
    have happ : loc ++ ":" ++ "Driver" = loc ++ ":Driver" := by
      apply String.ext
      rw [String.data_append, String.data_append, String.data_append, List.append_assoc]
      rfl
    rw [← happ]
    exact this
  have hE : pyPartitionColon (loc ++ ":") = (loc, "") := by
    have := pyPartitionColon_split loc "" hl
    have happ : loc ++ ":" ++ "" = loc ++ ":" := by
      apply String.ext
      rw [String.data_append, String.data_append]
      simp
    rw [← happ]
    exact this
  refine ⟨pyPartitionColon_split loc p hl, ?e2, ?e3, ?e4, ?e5⟩
  case e2 =>
    unfold resolveDriverClass
    rw [hD, pyPartitionColon_no_colon loc hl]
    rfl
  case e3 =>
    unfold resolveDriverClass
    rw [hD, hE]
    rfl
  case e4 =>
    intro q r hq
    exact splitOnChar_split q r hq
  case e5 =>
    intro a kwargs d hinit
    obtain ⟨envd, cfgd, ds, ctor, h1, h2, h3, h4, hst⟩ := init_inv w a kwargs _ hinit
    simp only [Option.some.injEq] at hst
    exact ⟨envd, cfgd, ds, ctor, h1, h2, h3, h4, hst⟩

/-- C6 witness: the default selector `nonebot.drivers.fastapi` (no colon)
parses with location/path split, resolves like an explicit `:Driver` path,
and the demo bootstrap constructs its driver from the resolved constructor
applied to the two resolved settings dicts. -/
theorem spec_C6_witness :
    pyPartitionColon ("nonebot.drivers.fastapi" ++ ":" ++ "A.B") =
      ("nonebot.drivers.fastapi", "A.B")
    ∧ resolveDriverClass demoWorld "nonebot.drivers.fastapi" =
        resolveDriverClass demoWorld ("nonebot.drivers.fastapi" ++ ":Driver")
    ∧ (∃ envd cfgd ds ctor,
        resolveConfig demoWorld.jsonLoads false envSchema [] [] demoWorld.environ
          (demoWorld.readEnvFile ".env") = .ok envd
        ∧ resolveConfig demoWorld.jsonLoads false configSchema [] envd demoWorld.environ
            (demoWorld.readEnvFile
              (mainEnvFile Option.none (pyValFormat (configGetattr envd "environment"))))
          = .ok cfgd
        ∧ configGetattr cfgd "driver" = PyVal.str ds
        ∧ resolveDriverClass demoWorld ds = .ok ctor
        ∧ demoDriver = ctor envd cfgd) := by
  have h := spec_C6 demoWorld "nonebot.drivers.fastapi" "A.B" (by decide)
  exact ⟨h.1, h.2.1, h.2.2.2.2 Option.none [] demoDriver (by rfl)⟩

/-- C7: every registry accessor called before bootstrap fails with the
not-initialized error — `get_driver` raises it directly and `get_bots`
inherits it by delegating to `get_driver`. -/
theorem spec_C7 :
    get_driver (Option.none : Option DriverInst) = .error NBErr.notInit
    ∧ get_bots (Option.none : Option DriverInst) = .error NBErr.notInit :=
  ⟨rfl, rfl⟩

/-- C8: after bootstrap, `get_bot id` returns exactly the bot registered
under `id` and fails with a key error otherwise; `get_bot` without an id
returns some registered bot when the registry is non-empty and fails with
the empty-registry error when it is empty. -/
theorem spec_C8 (d : DriverInst) (i : String) :
    (∀ b, dget d.bots i = some b → get_bot (some d) (some i) = .ok b)
    ∧ (dget d.bots i = Option.none → get_bot (some d) (some i) = .error (NBErr.keyError i))
    ∧ (d.bots = [] → get_bot (some d) Option.none = .error NBErr.noBots)
    ∧ (d.bots ≠ [] → ∃ i2 b, (i2, b) ∈ d.bots ∧ get_bot (some d) Option.none = .ok b) := by
  refine ⟨?p1, ?p2, ?p3, ?p4⟩
  case p1 =>
    intro b hb
    simp only [get_bot, get_bots, get_driver, hb]
  case p2 =>
    intro hb
    simp only [get_bot, get_bots, get_driver, hb]
  case p3 =>
    intro hb
    simp only [get_bot, get_bots, get_driver, hb]
  case p4 =>
    intro hb
    cases hbots : d.bots with
    | nil => exact absurd hbots hb
    | cons ib rest =>
      obtain ⟨i2, b⟩ := ib
      refine ⟨i2, b, List.mem_cons_self _ _, ?_⟩
      simp only [get_bot, get_bots, get_driver, hbots]

/-- C8 witness: with one bot registered under `"X"`, lookup by `"X"`
returns it, lookup by `"Y"` fails with the key error, the id-less lookup on
an empty registry fails with the empty error, and the id-less lookup on the
non-empty registry returns a registered bot. -/
theorem spec_C8_witness :
    get_bot (some d8) (some "X") = .ok 1
    ∧ get_bot (some d8) (some "Y") = .error (NBErr.keyError "Y")
    ∧ get_bot (some demoDriver) Option.none = .error NBErr.noBots
    ∧ (∃ i2 b, (i2, b) ∈ d8.bots ∧ get_bot (some d8) Option.none = .ok b) :=
  ⟨(spec_C8 d8 "X").1 1 rfl, (spec_C8 d8 "Y").2.1 rfl,
   (spec_C8 demoDriver "X").2.2.1 rfl, (spec_C8 d8 "X").2.2.2 (by simp [d8])⟩

theorem resolveDriverClass_congr (w w2 : World) (him : w.importModule = w2.importModule)
    (s : String) : resolveDriverClass w s = resolveDriverClass w2 s := by
  unfold resolveDriverClass
  rw [him]

theorem envResolve_file (jl : String → Except String JsonVal) (E : String) :
    resolveConfig jl false envSchema [] [] [] [("environment", some E)] =
      .ok [("environment", PyVal.str E)] := by
  rfl

/-- C9: the environment selector resolves against the fixed base file name
`.env` with default environment `prod`, and the file the main resolution
reads is the base name suffixed with the resolved environment
(`.env.<environment>`) unless the caller passes an explicit settings-file
path; accordingly a bootstrap depends on the filesystem only through the
base file and the selected file. -/
theorem spec_C9 (w w2 : World) (E : String) (a : Option String) (kwargs : Dict)
    (henv : w.environ = []) (henv2 : w2.environ = [])
    (hjl : w.jsonLoads = w2.jsonLoads) (him : w.importModule = w2.importModule)
    (hbase : w.readEnvFile ".env" = [("environment", some E)])
    (hbase2 : w2.readEnvFile ".env" = [("environment", some E)])
    (hsel : w.readEnvFile (mainEnvFile a E) = w2.readEnvFile (mainEnvFile a E)) :
    (∀ e, mainEnvFile Option.none e = ".env." ++ e)
    ∧ (∀ p e, p ≠ "" → mainEnvFile (some p) e = p)
    ∧ (∀ jl, resolveConfig jl false envSchema [] [] [] [] =
        .ok [("environment", PyVal.str "prod")])
    ∧ initModel w Option.none a kwargs = initModel w2 Option.none a kwargs := by
  refine ⟨fun e => rfl, ?p2, fun jl => rfl, ?p4⟩
  case p2 =>
    intro p e hp
    simp [mainEnvFile, hp]
  case p4 =>
    have hgat : pyValFormat (configGetattr [("environment", PyVal.str E)] "environment") = E := by
      simp [configGetattr, dget, pyValFormat]
    simp only [initModel, henv, henv2, hjl, hbase, hbase2, envResolve_file w2.jsonLoads E,
      hgat, hsel, resolveDriverClass_congr w w2 him]

/-- C9 witness: two worlds selecting environment `dev` through the base
file and agreeing on `.env.dev` (but not elsewhere) bootstrap identically,
and the file-name computations evaluate as claimed. -/
theorem spec_C9_witness :
    ((∀ e, mainEnvFile Option.none e = ".env." ++ e)
    ∧ (∀ p e, p ≠ "" → mainEnvFile (some p) e = p)
    ∧ (∀ jl, resolveConfig jl false envSchema [] [] [] [] =
        .ok [("environment", PyVal.str "prod")])
    ∧ initModel w9A Option.none Option.none [] = initModel w9B Option.none Option.none []) := by
  exact spec_C9 w9A w9B "dev" Option.none [] rfl rfl rfl rfl rfl rfl rfl
